import Mathlib

/-!
Verification of the AI-Video-Highlighter pipeline core.

Shallow embedding of the pipeline-relevant source code:
  * `format_timestamp`  — src/utils.py and src/audio_highlighter/utils.py
  * `parse_highlights_for_video` — VideoProcessor._parse_highlights_for_video
  * `create_highlight_video`    — VideoProcessor._create_highlight_video
  * `export_transcript_to_srt`  — src/audio_highlighter/utils.py (same cue
    format as VideoProcessor._save_transcripts)

Text is modelled as `List Char`; Python floats as `ℚ`; the ffmpeg toolkit as
a success oracle (`cutOk : Nat → Bool`, `concatOk : Bool`) together with an
explicit record of the observable effects of one assembler run.
-/

namespace AVH

/-! ### Timestamp codec (format_timestamp) -/

/-- Python `round`: round half to even (banker's rounding), as used by
`round(seconds * 1000.0)` in `format_timestamp`. -/
def pyRound (q : ℚ) : ℤ :=
  let f : ℤ := ⌊q⌋
  if q - (f : ℚ) < 1/2 then f
  else if 1/2 < q - (f : ℚ) then f + 1
  else if f % 2 = 0 then f else f + 1

def digitChar (n : Nat) : Char := Char.ofNat (48 + n)

/-- Decimal digits of `n`, most significant first (fuel-based so that it
reduces definitionally). -/
def natDigitsAux (fuel n : Nat) : List Char :=
  match fuel with
  | 0 => []
  | fuel' + 1 =>
    if n = 0 then [] else natDigitsAux fuel' (n / 10) ++ [digitChar (n % 10)]

def natDigits (n : Nat) : List Char :=
  if n = 0 then ['0'] else natDigitsAux (n + 1) n

/-- Python format `{n:02d}` for `n ≥ 0`: pad with zeros to width ≥ 2,
never truncating. -/
def pad2 (n : Nat) : List Char :=
  if n < 10 then '0' :: natDigits n else natDigits n

/-- Python format `{n:03d}` for `n ≥ 0`. -/
def pad3 (n : Nat) : List Char :=
  if n < 10 then '0' :: ('0' :: natDigits n)
  else if n < 100 then '0' :: natDigits n
  else natDigits n

/-- Decomposition and rendering of a millisecond count: the divmod chain of
the source applied after rounding. -/
def timestampBodyNat (ms0 : Nat) (srt_format : Bool) : List Char :=
  let hours := ms0 / 3600000
  let ms1 := ms0 % 3600000
  let minutes := ms1 / 60000
  let ms2 := ms1 % 60000
  let secs := ms2 / 1000
  let ms := ms2 % 1000
  pad2 hours ++ (':' :: (pad2 minutes ++ (':' :: (pad2 secs ++
    (if srt_format then ',' :: pad3 ms else [])))))

/-- Body of `format_timestamp` after the assert: round to nearest
millisecond, then decompose by the divmod chain of the source. -/
def timestampBody (seconds : ℚ) (srt_format : Bool) : List Char :=
  timestampBodyNat (pyRound (seconds * 1000)).toNat srt_format

/-- `format_timestamp(seconds, srt_format)` from src/utils.py.  The
`assert seconds >= 0` is modelled by returning `none` (an uncaught
`AssertionError`) on negative input. -/
def format_timestamp (seconds : ℚ) (srt_format : Bool) : Option (List Char) :=
  if seconds < 0 then none
  else some (timestampBody seconds srt_format)

/-- The hours value the formatted timestamp displays (never clamped). -/
def hoursOf (seconds : ℚ) : Nat := (pyRound (seconds * 1000)).toNat / 3600000

/-! ### Highlight response parser (_parse_highlights_for_video)

The Python implementation works with three regular expressions:

  * section:  re.search of `Interesting_Moments:` + whitespace + a fenced
    region, DOTALL, non-greedy body;
  * chunks:   re.findall of `Title:` + lazy body up to the lookahead
    "newline, whitespace, digits, period" or end of block;
  * times:    re.search of `Start_Time:`/`End_Time:` + whitespace +
    a strict two-digit `DD:DD:DD` pattern.

Each is hand-compiled below.  Lazy/greedy behaviour of each quantifier is
deterministic here because the character following each starred class never
belongs to the class (whitespace vs backtick, whitespace vs digit, digit vs
period), so maximal-munch scanning is exact. -/

/-- Python `\s` on ASCII input. -/
def isWs (c : Char) : Bool :=
  c == ' ' || c == '\t' || c == '\n' || c == '\r' || c == '\x0b' || c == '\x0c'

/-- The backtick character (code 96). -/
def btick : Char := Char.ofNat 96

def fence : List Char := [btick, btick, btick]

def interestingMomentsLabel : List Char :=
  ['I', 'n', 't', 'e', 'r', 'e', 's', 't', 'i', 'n', 'g', '_', 'M', 'o',
   'm', 'e', 'n', 't', 's', ':']

def titleLabel : List Char := ['T', 'i', 't', 'l', 'e', ':']

def startTimeLabel : List Char :=
  ['S', 't', 'a', 'r', 't', '_', 'T', 'i', 'm', 'e', ':']

def endTimeLabel : List Char :=
  ['E', 'n', 'd', '_', 'T', 'i', 'm', 'e', ':']

/-- Skip a maximal run of whitespace (`\s*` followed by a non-whitespace
requirement). -/
def skipWs : List Char → List Char
  | [] => []
  | c :: rest => if isWs c then skipWs rest else c :: rest

/-- Lazy body of the fenced region: the characters before the first
closing fence, `none` when no closing fence exists (`(.*?)` + fence). -/
def takeBody : List Char → Option (List Char)
  | [] => none
  | c :: rest =>
    if fence.isPrefixOf (c :: rest) then some []
    else (takeBody rest).map (fun b => c :: b)

/-- Attempt of the section regex at one start position. -/
def matchSectionAt (l : List Char) : Option (List Char) :=
  if interestingMomentsLabel.isPrefixOf l then
    let r := skipWs (l.drop interestingMomentsLabel.length)
    if fence.isPrefixOf r then takeBody (r.drop fence.length)
    else none
  else none

/-- Leftmost match of the section regex (`re.search` scanning). -/
def findSection : List Char → Option (List Char)
  | [] => none
  | c :: rest =>
    match matchSectionAt (c :: rest) with
    | some body => some body
    | none => findSection rest

/-- The lookahead `(?=\n\s*\d+\.|\Z)` that terminates a record chunk. -/
def lookaheadHolds : List Char → Bool
  | [] => true
  | c :: rest =>
    if c == '\n' then
      let r := (rest.dropWhile isWs)
      let ds := r.takeWhile Char.isDigit
      let r2 := r.dropWhile Char.isDigit
      (!ds.isEmpty) &&
        (match r2 with
         | '.' :: _ => true
         | _ => false)
    else false

/-- Lazy chunk body: characters after `Title:` up to the first position
where the lookahead holds (end of input always qualifies).  Returns the
body and the unconsumed remainder. -/
def takeBlockBody : List Char → (List Char × List Char)
  | [] => ([], [])
  | c :: rest =>
    if lookaheadHolds (c :: rest) then ([], c :: rest)
    else
      let p := takeBlockBody rest
      (c :: p.1, p.2)

/-- `re.findall` of the chunk regex: non-overlapping matches scanned left
to right, resuming after each match end.  Fuel-based (each step consumes at
least one character, so `l.length` fuel is exact). -/
def splitBlocksAux (fuel : Nat) (l : List Char) : List (List Char) :=
  match fuel with
  | 0 => []
  | fuel' + 1 =>
    match l with
    | [] => []
    | c :: rest =>
      if titleLabel.isPrefixOf (c :: rest) then
        let p := takeBlockBody ((c :: rest).drop titleLabel.length)
        (titleLabel ++ p.1) :: splitBlocksAux fuel' p.2
      else splitBlocksAux fuel' rest

def splitBlocks (l : List Char) : List (List Char) :=
  splitBlocksAux l.length l

/-- The strict `\d{2}:\d{2}:\d{2}` timestamp pattern. -/
def parseHMS (r : List Char) : Option (List Char) :=
  match r with
  | h1 :: h2 :: c1 :: m1 :: m2 :: c2 :: s1 :: s2 :: _ =>
    if h1.isDigit && h2.isDigit && c1 == ':' && m1.isDigit && m2.isDigit &&
        c2 == ':' && s1.isDigit && s2.isDigit then
      some [h1, h2, ':', m1, m2, ':', s1, s2]
    else none
  | _ => none

/-- Attempt of a time regex (`label` + `\s*` + capture) at one position. -/
def matchTimeAt (lab l : List Char) : Option (List Char) :=
  if lab.isPrefixOf l then parseHMS (skipWs (l.drop lab.length))
  else none

/-- Leftmost successful match of a time regex inside a chunk. -/
def findTime (lab : List Char) : List Char → Option (List Char)
  | [] => none
  | c :: rest =>
    match matchTimeAt lab (c :: rest) with
    | some t => some t
    | none => findTime lab rest

/-- The per-chunk condition of the source: a chunk yields a candidate
exactly when both `Start_Time` and `End_Time` matches exist. -/
def extractTimes (b : List Char) : Option (List Char × List Char) :=
  match findTime startTimeLabel b, findTime endTimeLabel b with
  | some s, some e => some (s, e)
  | _, _ => none

/-- The `for block in moment_blocks` accumulation loop of the source. -/
def collectSegments : List (List Char) → List (List Char × List Char)
  | [] => []
  | b :: bs =>
    match extractTimes b with
    | some p => p :: collectSegments bs
    | none => collectSegments bs

/-- `VideoProcessor._parse_highlights_for_video`.  Total by construction:
the source wraps the body in a `try/except` returning `[]`, and returns
`[]` when the section regex does not match. -/
def parse_highlights_for_video (highlights_text : List Char) :
    List (List Char × List Char) :=
  match findSection highlights_text with
  | none => []
  | some moments_text => collectSegments (splitBlocks moments_text)

/-- Substring occurrence test, used to state when the label or the fence
marker is absent from the input. -/
def containsSub (needle : List Char) : List Char → Bool
  | [] => needle.isEmpty
  | c :: rest => needle.isPrefixOf (c :: rest) || containsSub needle rest

/-! ### Clip assembler (_create_highlight_video)

The ffmpeg toolkit is abstracted by a success oracle: `cutOk i` tells
whether the cut subprocess for clip index `i` exits with status 0 (`false`
covers both a non-zero exit and a missing binary), `concatOk` likewise for
the single concat invocation.  An `AssembleResult` records the externally
observable effects of one run. -/

/-- Observable effects of one `_create_highlight_video` run.
Fields in order: ranges for which a cut command was issued (in issue
order); indices of clips actually produced; whether the concat command was
invoked; whether the destination file was written (concat succeeded);
whether the "No clips were created" branch was reported; whether the
scoped temporary directory was removed on exit. -/
structure AssembleResult where
  cutCmds : List (List Char × List Char)
  clips : List Nat
  concatInvoked : Bool
  destWritten : Bool
  reportedNoClips : Bool
  tempDirRemoved : Bool
deriving DecidableEq

/-- The `for i, (start, end) in enumerate(time_segments)` cutting loop:
issues commands in order; on the first failure it stops (the source's
early `return`).  Returns the issued commands, the produced clip indices,
and whether the loop completed. -/
def cutLoop (cutOk : Nat → Bool) : Nat → List (List Char × List Char) →
    List (List Char × List Char) × List Nat × Bool
  | _, [] => ([], [], true)
  | i, seg :: rest =>
    if cutOk i then
      let r := cutLoop cutOk (i + 1) rest
      (seg :: r.1, i :: r.2.1, r.2.2)
    else ([seg], [], false)

/-- `VideoProcessor._create_highlight_video`.  The `with TemporaryDirectory`
context manager removes the temporary directory on every exit path, hence
`tempDirRemoved` is `true` in every branch. -/
def create_highlight_video (cutOk : Nat → Bool) (concatOk : Bool)
    (time_segments : List (List Char × List Char)) : AssembleResult :=
  let r := cutLoop cutOk 0 time_segments
  if r.2.2 = false then
    -- a cut failed: early return, no concat, nothing written
    ⟨r.1, r.2.1, false, false, false, true⟩
  else if r.2.1.isEmpty then
    -- "No clips were created, cannot generate highlight video."
    ⟨r.1, r.2.1, false, false, true, true⟩
  else
    ⟨r.1, r.2.1, true, concatOk, false, true⟩

/-- Modelled from the spec: the Timestamp Codec's `decode(string, plain)`
operation.  The source repository provides only the encoder
(`format_timestamp`); the spec's codec contract (§4.1) also names a decoder
that interprets plain `HH:MM:SS` text as seconds, which is what the cut
ranges denote when handed to ffmpeg. -/
def decode_plain (t : List Char) : Nat :=
  match t with
  | [h1, h2, c1, m1, m2, c2, s1, s2] =>
    if c1 == ':' && c2 == ':' then
      ((h1.toNat - 48) * 10 + (h2.toNat - 48)) * 3600 +
        ((m1.toNat - 48) * 10 + (m2.toNat - 48)) * 60 +
        ((s1.toNat - 48) * 10 + (s2.toNat - 48))
    else 0
  | _ => 0

/-! ### Transcript formatter (SRT export) -/

/-- A transcription-service segment (`{start, end, text}`). -/
structure SpeechSegment where
  start : ℚ
  «end» : ℚ
  text : List Char

/-- Python `str.strip()` on ASCII input. -/
def stripChars (l : List Char) : List Char :=
  ((l.dropWhile isWs).reverse.dropWhile isWs).reverse

/-- The cue layout of the source loop, described per segment: 1-based
sequence number line, the `start --> end` line in subtitle style, the
trimmed text, then a blank line. -/
def srtCueSpec (n : Nat) (s : SpeechSegment) : List Char :=
  natDigits (n + 1) ++ ('\n' ::
    ((format_timestamp s.start true).getD [] ++
      ((' ' :: ('-' :: ('-' :: ('>' :: (' ' :: []))))) ++
        ((format_timestamp s.«end» true).getD [] ++
          ('\n' :: (stripChars s.text ++ ('\n' :: ('\n' :: []))))))))

/-- `export_transcript_to_srt` / the SRT half of `_save_transcripts`:
the enumerate loop writing one cue per segment.  A segment with a negative
timestamp would make `format_timestamp` raise, modelled as `none`. -/
def export_transcript_to_srt (i : Nat) :
    List SpeechSegment → Option (List Char)
  | [] => some []
  | s :: rest =>
    match format_timestamp s.start true, format_timestamp s.«end» true with
    | some a, some b =>
      match export_transcript_to_srt (i + 1) rest with
      | some tail =>
        some (natDigits (i + 1) ++ ('\n' ::
          (a ++ ((' ' :: ('-' :: ('-' :: ('>' :: (' ' :: []))))) ++
            (b ++ ('\n' :: (stripChars s.text ++ ('\n' :: ('\n' :: tail)))))))))
      | none => none
    | _, _ => none

/-! ### Concrete inputs used by the witnesses -/

def wMissingEnd : List Char :=
  ("Interesting_Moments:\n```\n1.\nTitle: A\nStart_Time: 00:00:01\nEnd_Time: 00:00:02\n\n2.\nTitle: B\nStart_Time: 00:00:03\n\n3.\nTitle: C\nStart_Time: 00:00:05\nEnd_Time: 00:00:06\n```").toList

def wMissingEndBody : List Char :=
  ("\n1.\nTitle: A\nStart_Time: 00:00:01\nEnd_Time: 00:00:02\n\n2.\nTitle: B\nStart_Time: 00:00:03\n\n3.\nTitle: C\nStart_Time: 00:00:05\nEnd_Time: 00:00:06\n").toList

def wFirstBody : List Char :=
  ("\n1.\nTitle: A\nStart_Time: 00:00:01\nEnd_Time: 00:00:02\n").toList

def wSecondBlock : List Char :=
  ("\nAlso:\n```\nTitle: B\nStart_Time: 00:00:05\nEnd_Time: 00:00:06\n```").toList

def wSegs3 : List (List Char × List Char) :=
  [(("00:00:01").toList, ("00:00:02").toList),
   (("00:00:03").toList, ("00:00:04").toList),
   (("00:00:05").toList, ("00:00:06").toList)]

def wSpeech : List SpeechSegment :=
  [⟨0, 1, (" Hello ").toList⟩, ⟨1, 2, ("world").toList⟩]

/-! ## Helper lemmas: decimal rendering and rounding -/

theorem natDigitsAux_length_pos (fuel n : Nat) (hf : 1 ≤ fuel) (hn : n ≠ 0) :
    1 ≤ (natDigitsAux fuel n).length := by
  obtain ⟨f, rfl⟩ : ∃ f, fuel = f + 1 := ⟨fuel - 1, by omega⟩
  simp [natDigitsAux, hn]

theorem natDigitsAux_length_two (fuel n : Nat) (hf : 2 ≤ fuel) (hn : 10 ≤ n) :
    2 ≤ (natDigitsAux fuel n).length := by
  obtain ⟨f, rfl⟩ : ∃ f, fuel = f + 1 := ⟨fuel - 1, by omega⟩
  have h1 : 1 ≤ (natDigitsAux f (n / 10)).length :=
    natDigitsAux_length_pos f (n / 10) (by omega) (by omega)
  simp [natDigitsAux, show n ≠ 0 by omega]
  omega

theorem natDigitsAux_length_three (fuel n : Nat) (hf : 3 ≤ fuel) (hn : 100 ≤ n) :
    3 ≤ (natDigitsAux fuel n).length := by
  obtain ⟨f, rfl⟩ : ∃ f, fuel = f + 1 := ⟨fuel - 1, by omega⟩
  have h1 : 2 ≤ (natDigitsAux f (n / 10)).length :=
    natDigitsAux_length_two f (n / 10) (by omega) (by omega)
  simp [natDigitsAux, show n ≠ 0 by omega]
  omega

theorem natDigits_length_pos (n : Nat) : 1 ≤ (natDigits n).length := by
  by_cases h : n = 0
  · simp [natDigits, h]
  · simp only [natDigits, h, if_false]
    exact natDigitsAux_length_pos (n + 1) n (by omega) h

theorem pad2_length_two (n : Nat) : 2 ≤ (pad2 n).length := by
  by_cases h : n < 10
  · have h1 := natDigits_length_pos n
    simp only [pad2, if_pos h, List.length_cons]
    omega
  · have h1 := natDigitsAux_length_two (n + 1) n (by omega) (by omega)
    simp [pad2, h, natDigits, show n ≠ 0 by omega]
    omega

theorem pad2_length_three (n : Nat) (hn : 100 ≤ n) : 3 ≤ (pad2 n).length := by
  have h1 := natDigitsAux_length_three (n + 1) n (by omega) (by omega)
  simp [pad2, show ¬ n < 10 by omega, natDigits, show n ≠ 0 by omega]
  omega

theorem floor_le_pyRound (q : ℚ) : ⌊q⌋ ≤ pyRound q := by
  simp only [pyRound]
  split_ifs <;> omega

theorem hoursOf_ge_100 (s : ℚ) (h : (360000 : ℚ) ≤ s) : 100 ≤ hoursOf s := by
  have h1 : (360000000 : ℤ) ≤ ⌊s * 1000⌋ := by
    rw [Int.le_floor]
    push_cast
    linarith
  have h2 : (360000000 : ℤ) ≤ pyRound (s * 1000) :=
    le_trans h1 (floor_le_pyRound _)
  unfold hoursOf
  omega

theorem format_timestamp_eq_some (q : ℚ) (b : Bool) (h : 0 ≤ q) :
    format_timestamp q b = some (timestampBody q b) := by
  simp [format_timestamp, not_lt.mpr h]

/-! ## Claims about the timestamp codec -/

/-- C6: the timestamp encoder first rounds its seconds argument to the
nearest millisecond and then decomposes into hours, minutes, seconds and
milliseconds; in particular `encode(3661.5, plain) = "01:01:01"` and
`encode(3661.5, subtitle) = "01:01:01,500"`.  The general conjunct states
that the output depends on the input only through the rounded millisecond
count. -/
theorem format_timestamp_rounds_then_decomposes :
    (format_timestamp (7323 / 2) false = some (("01:01:01").toList) ∧
      format_timestamp (7323 / 2) true = some (("01:01:01,500").toList)) ∧
    ∀ (s t : ℚ) (b : Bool), 0 ≤ s → 0 ≤ t →
      pyRound (s * 1000) = pyRound (t * 1000) →
      format_timestamp s b = format_timestamp t b := by
  have hr : pyRound ((7323 / 2 : ℚ) * 1000) = 3661500 := by
    rw [pyRound]
    norm_num
  refine ⟨⟨?_, ?_⟩, ?_⟩
  · rw [format_timestamp_eq_some _ _ (by norm_num), timestampBody, hr]
    decide
  · rw [format_timestamp_eq_some _ _ (by norm_num), timestampBody, hr]
    decide
  · intro s t b hs ht hst
    rw [format_timestamp_eq_some _ _ hs, format_timestamp_eq_some _ _ ht,
      timestampBody, timestampBody, hst]

theorem format_timestamp_rounds_then_decomposes_witness :
    format_timestamp 2 false = format_timestamp (20001 / 10000) false :=
  format_timestamp_rounds_then_decomposes.2 2 (20001 / 10000) false
    (by norm_num) (by norm_num) (by rw [pyRound, pyRound]; norm_num)

/-- C7: for every non-negative seconds input the hours field of the
encoded timestamp is not clamped or truncated: it is zero-padded to at
least two digits, and for 360000 seconds (100 hours) or more it is
rendered with three or more digits. -/
theorem hours_field_unclamped (s : ℚ) (b : Bool) (hs : 0 ≤ s) :
    (∃ rest, format_timestamp s b = some (pad2 (hoursOf s) ++ (':' :: rest))) ∧
    2 ≤ (pad2 (hoursOf s)).length ∧
    ((360000 : ℚ) ≤ s → 3 ≤ (pad2 (hoursOf s)).length) := by
  constructor
  · rw [format_timestamp_eq_some _ _ hs]
    exact ⟨_, rfl⟩
  · exact ⟨pad2_length_two _, fun h => pad2_length_three _ (hoursOf_ge_100 s h)⟩

theorem hours_field_unclamped_witness :
    2 ≤ (pad2 (hoursOf 360000)).length ∧ 3 ≤ (pad2 (hoursOf 360000)).length :=
  ⟨(hours_field_unclamped 360000 false (by norm_num)).2.1,
   (hours_field_unclamped 360000 false (by norm_num)).2.2 (by norm_num)⟩

/-- C8: a negative seconds input makes the encoder fail fast (the assert
raises, modelled by `none`); for every non-negative input that failure
branch is unreachable and a string is returned. -/
theorem format_timestamp_fails_fast_on_negative (s : ℚ) (b : Bool) :
    (s < 0 → format_timestamp s b = none) ∧
    (0 ≤ s → (format_timestamp s b).isSome = true) := by
  constructor
  · intro h
    simp [format_timestamp, h]
  · intro h
    simp [format_timestamp_eq_some s b h]

theorem format_timestamp_fails_fast_on_negative_witness :
    format_timestamp (-1) false = none ∧
      (format_timestamp 0 false).isSome = true :=
  ⟨(format_timestamp_fails_fast_on_negative (-1) false).1 (by norm_num),
   (format_timestamp_fails_fast_on_negative 0 false).2 (by norm_num)⟩

/-! ## Helper lemmas: the cutting loop -/

theorem cutLoop_all_true (k : Nat) (segs : List (List Char × List Char)) :
    (cutLoop (fun _ => true) k segs).1 = segs ∧
      (cutLoop (fun _ => true) k segs).2.2 = true := by
  induction segs generalizing k with
  | nil => simp [cutLoop]
  | cons s rest ih =>
    simp [cutLoop, (ih (k + 1)).1, (ih (k + 1)).2]

theorem cutLoop_fail (cutOk : Nat → Bool) (k : Nat)
    (segs : List (List Char × List Char)) (i : Nat)
    (hi : i < segs.length) (hfail : cutOk (k + i) = false)
    (hbefore : ∀ j, j < i → cutOk (k + j) = true) :
    cutLoop cutOk k segs =
      (segs.take (i + 1), (List.range i).map (fun x => k + x), false) := by
  induction segs generalizing k i with
  | nil => simp at hi
  | cons s rest ih =>
    cases i with
    | zero =>
      have h0 : cutOk k = false := by simpa using hfail
      simp [cutLoop, h0]
    | succ i' =>
      have hk : cutOk k = true := by simpa using hbefore 0 (Nat.succ_pos i')
      have hrec := ih (k + 1) i' (by simpa using hi)
        (by rw [show k + 1 + i' = k + (i' + 1) by omega]; exact hfail)
        (fun j hj => by
          rw [show k + 1 + j = k + (j + 1) by omega]
          exact hbefore (j + 1) (by omega))
      have hmap : (List.range (i' + 1)).map (fun x => k + x) =
          k :: (List.range i').map (fun x => k + 1 + x) := by
        rw [List.range_succ_eq_map, List.map_cons, List.map_map]
        simp only [Nat.add_zero]
        congr 1
        apply List.map_congr_left
        intro x _
        simp only [Function.comp_apply]
        omega
      simp [cutLoop, hk, hrec, hmap]

/-! ## Claims about the clip assembler -/

/-- C2 (counterexample): for the candidate list
`[(00:02:00, 00:02:30), (00:00:10, 00:00:20)]` the cut list fed to the
clip-cutting stage is NOT `[(10,20), (120,150)]` in seconds — no sorting
happens anywhere between the parser and the assembler. -/
theorem cut_list_not_sorted_counterexample :
    ¬ (((create_highlight_video (fun _ => true) true
        [(("00:02:00").toList, ("00:02:30").toList),
         (("00:00:10").toList, ("00:00:20").toList)]).cutCmds.map
      (fun p => (decode_plain p.1, decode_plain p.2))) = [(10, 20), (120, 150)]) := by
  decide

/-- C2 (amended): the cut list fed to the clip-cutting stage preserves the
candidate order exactly as parsed (no sorting by start time); for the
candidate list `[(00:02:00, 00:02:30), (00:00:10, 00:00:20)]` the cut list
equals `[(120,150), (10,20)]` in seconds. -/
theorem cut_list_preserves_candidate_order (concatOk : Bool)
    (segs : List (List Char × List Char)) :
    (create_highlight_video (fun _ => true) concatOk segs).cutCmds = segs ∧
    ((create_highlight_video (fun _ => true) true
        [(("00:02:00").toList, ("00:02:30").toList),
         (("00:00:10").toList, ("00:00:20").toList)]).cutCmds.map
      (fun p => (decode_plain p.1, decode_plain p.2))) = [(120, 150), (10, 20)] := by
  constructor
  · have h := cutLoop_all_true 0 segs
    simp only [create_highlight_video]
    split_ifs <;> exact h.1
  · decide

/-- C3: when the cut for index `i` is the first to fail, the whole run
aborts immediately: the issued cut commands stop at index `i` (no later
range is cut), the concatenation step is never invoked, nothing is written
to the destination path, and the temporary clip directory is removed. -/
theorem assemble_aborts_on_cut_failure (cutOk : Nat → Bool) (concatOk : Bool)
    (segs : List (List Char × List Char)) (i : Nat)
    (hi : i < segs.length) (hfail : cutOk i = false)
    (hbefore : ∀ j, j < i → cutOk j = true) :
    (create_highlight_video cutOk concatOk segs).cutCmds = segs.take (i + 1) ∧
    (create_highlight_video cutOk concatOk segs).clips = List.range i ∧
    (create_highlight_video cutOk concatOk segs).concatInvoked = false ∧
    (create_highlight_video cutOk concatOk segs).destWritten = false ∧
    (create_highlight_video cutOk concatOk segs).tempDirRemoved = true := by
  have h := cutLoop_fail cutOk 0 segs i hi (by simpa using hfail)
    (fun j hj => by simpa using hbefore j hj)
  simp [create_highlight_video, h]

theorem assemble_aborts_on_cut_failure_witness :
    (create_highlight_video (fun i => !(i == 1)) true wSegs3).concatInvoked = false ∧
    (create_highlight_video (fun i => !(i == 1)) true wSegs3).destWritten = false ∧
    (create_highlight_video (fun i => !(i == 1)) true wSegs3).tempDirRemoved = true :=
  let h := assemble_aborts_on_cut_failure (fun i => !(i == 1)) true wSegs3 1
    (by decide) (by decide) (by decide)
  ⟨h.2.2.1, h.2.2.2.1, h.2.2.2.2⟩

/-- C10: invoked with an empty cut-range list, the assembler issues no cut
command, never invokes concatenation, writes nothing to the destination,
reports that no clips were created, and removes the temporary directory. -/
theorem assemble_empty_cut_list_noop (cutOk : Nat → Bool) (concatOk : Bool) :
    create_highlight_video cutOk concatOk [] =
      ⟨[], [], false, false, true, true⟩ := by
  simp [create_highlight_video, cutLoop]

/-! ## Helper lemmas: scanning and substring occurrence -/

theorem skipWs_eq_drop (l : List Char) : ∃ k, skipWs l = l.drop k := by
  induction l with
  | nil => exact ⟨0, rfl⟩
  | cons c rest ih =>
    by_cases h : isWs c
    · obtain ⟨k, hk⟩ := ih
      exact ⟨k + 1, by simpa [skipWs, h] using hk⟩
    · exact ⟨0, by simp [skipWs, h]⟩

theorem skipWs_append (ws y : List Char) (h : ws.all isWs = true) :
    skipWs (ws ++ y) = skipWs y := by
  induction ws with
  | nil => rfl
  | cons c rest ih =>
    simp only [List.all_cons, Bool.and_eq_true] at h
    simp [skipWs, h.1, ih h.2]

theorem skipWs_not_ws (c : Char) (l : List Char) (h : isWs c = false) :
    skipWs (c :: l) = c :: l := by
  simp [skipWs, h]

theorem containsSub_of_prefixOf_drop (N l : List Char) (k : Nat)
    (h : N.isPrefixOf (l.drop k) = true) : containsSub N l = true := by
  induction k generalizing l with
  | zero =>
    cases l with
    | nil =>
      cases N with
      | nil => rfl
      | cons a as => simp [List.isPrefixOf] at h
    | cons c rest =>
      rw [List.drop_zero] at h
      simp only [containsSub, Bool.or_eq_true]
      exact Or.inl h
  | succ k ih =>
    cases l with
    | nil =>
      cases N with
      | nil => rfl
      | cons a as => simp [List.isPrefixOf] at h
    | cons c rest =>
      simp only [List.drop_succ_cons] at h
      simp only [containsSub, Bool.or_eq_true]
      exact Or.inr (ih rest h)

theorem prefixOf_take (N l : List Char) (m : Nat) (hm : N.length ≤ m)
    (h : N.isPrefixOf l = true) : N.isPrefixOf (l.take m) = true := by
  rw [List.isPrefixOf_iff_prefix] at h ⊢
  obtain ⟨t, rfl⟩ := h
  rw [List.take_append_eq_append_take, List.take_of_length_le hm]
  exact List.prefix_append _ _

/-! ## Helper lemmas: the section regex -/

theorem matchSectionAt_some_label (l b : List Char)
    (h : matchSectionAt l = some b) :
    interestingMomentsLabel.isPrefixOf l = true := by
  by_cases hp : interestingMomentsLabel.isPrefixOf l = true
  · exact hp
  · simp [matchSectionAt, hp] at h

theorem matchSectionAt_some_fence (l b : List Char)
    (h : matchSectionAt l = some b) :
    ∃ m, fence.isPrefixOf (l.drop m) = true := by
  have hp := matchSectionAt_some_label l b h
  simp only [matchSectionAt, hp, if_true] at h
  by_cases hf :
      fence.isPrefixOf (skipWs (l.drop interestingMomentsLabel.length)) = true
  · obtain ⟨j, hj⟩ := skipWs_eq_drop (l.drop interestingMomentsLabel.length)
    rw [hj, List.drop_drop] at hf
    exact ⟨_, hf⟩
  · simp [hf] at h

theorem findSection_some_drop (l b : List Char) (h : findSection l = some b) :
    ∃ k, matchSectionAt (l.drop k) = some b := by
  induction l with
  | nil => simp [findSection] at h
  | cons c rest ih =>
    rw [findSection] at h
    cases hm : matchSectionAt (c :: rest) with
    | some b' =>
      rw [hm] at h
      obtain rfl : b' = b := by simpa using h
      exact ⟨0, by simpa using hm⟩
    | none =>
      rw [hm] at h
      obtain ⟨k, hk⟩ := ih h
      exact ⟨k + 1, by simpa using hk⟩

/-! ## Claims about the highlight response parser: totality and the
missing-section path -/

/-- C1: the highlight-response parse operation is a total function (the
embedding returns a plain list, modelling that the source never raises:
its body is guarded by `try/except` and every failure path returns `[]`);
whenever the labeled fenced block cannot be located — in particular when
the `Interesting_Moments:` label or the fence marker is absent from the
input — it returns the empty candidate list. -/
theorem parse_total_empty_on_missing_section (text : List Char) :
    (findSection text = none → parse_highlights_for_video text = []) ∧
    (containsSub interestingMomentsLabel text = false →
      parse_highlights_for_video text = []) ∧
    (containsSub fence text = false → parse_highlights_for_video text = []) := by
  have hbase : findSection text = none → parse_highlights_for_video text = [] := by
    intro h
    simp [parse_highlights_for_video, h]
  refine ⟨hbase, ?_, ?_⟩
  · intro habs
    apply hbase
    cases hfs : findSection text with
    | none => rfl
    | some body =>
      obtain ⟨k, hk⟩ := findSection_some_drop text body hfs
      have hlab := matchSectionAt_some_label _ _ hk
      have hcon := containsSub_of_prefixOf_drop _ _ k hlab
      rw [habs] at hcon
      exact absurd hcon (by simp)
  · intro habs
    apply hbase
    cases hfs : findSection text with
    | none => rfl
    | some body =>
      obtain ⟨k, hk⟩ := findSection_some_drop text body hfs
      obtain ⟨m, hm⟩ := matchSectionAt_some_fence _ _ hk
      rw [List.drop_drop] at hm
      have hcon := containsSub_of_prefixOf_drop _ _ _ hm
      rw [habs] at hcon
      exact absurd hcon (by simp)

theorem parse_total_empty_on_missing_section_witness :
    parse_highlights_for_video (("no fenced block in this response").toList) = [] :=
  (parse_total_empty_on_missing_section _).1 (by decide)

/-! ## Claims about the parser: per-chunk candidate extraction -/

theorem extractTimes_isSome_iff (b : List Char) :
    (extractTimes b).isSome = true ↔
      ((findTime startTimeLabel b).isSome = true ∧
        (findTime endTimeLabel b).isSome = true) := by
  unfold extractTimes
  cases h1 : findTime startTimeLabel b <;>
    cases h2 : findTime endTimeLabel b <;> simp

theorem collectSegments_eq_filter_map (blocks : List (List Char)) :
    collectSegments blocks =
      (blocks.filter (fun b => (extractTimes b).isSome)).map
        (fun b => (extractTimes b).getD ([], [])) := by
  induction blocks with
  | nil => simp [collectSegments]
  | cons b bs ih =>
    cases h : extractTimes b with
    | none => simp [collectSegments, h, ih, List.filter_cons]
    | some p => simp [collectSegments, h, ih, List.filter_cons]

/-- C4: a parsed record chunk contributes a highlight candidate exactly
when both a `Start_Time` and an `End_Time` timestamp are found in it; a
chunk missing either is silently dropped while every other chunk with both
timestamps is still returned, and the candidates appear in chunk order
(the filter/map form preserves the order of `splitBlocks`). -/
theorem candidate_iff_both_timestamps (text body : List Char)
    (h : findSection text = some body) :
    (∀ b : List Char, (extractTimes b).isSome = true ↔
      ((findTime startTimeLabel b).isSome = true ∧
        (findTime endTimeLabel b).isSome = true)) ∧
    parse_highlights_for_video text =
      ((splitBlocks body).filter (fun b => (extractTimes b).isSome)).map
        (fun b => (extractTimes b).getD ([], [])) := by
  refine ⟨extractTimes_isSome_iff, ?_⟩
  unfold parse_highlights_for_video
  rw [h]
  exact collectSegments_eq_filter_map _

/-! ## Helper lemmas: the first fenced block wins -/

theorem takeBody_clean (b rest : List Char)
    (hb : b.all (fun c => !(c == btick)) = true) :
    takeBody (b ++ (fence ++ rest)) = some b := by
  induction b with
  | nil =>
    simp [takeBody, fence, List.isPrefixOf]
  | cons c b' ih =>
    simp only [List.all_cons, Bool.and_eq_true, Bool.not_eq_true'] at hb
    have hne : c ≠ btick := by
      intro hh
      rw [hh] at hb
      simpa using hb.1
    have hbc : (btick == c) = false := by
      cases hcc : btick == c
      · rfl
      · exact absurd (eq_of_beq hcc) (Ne.symm hne)
    rw [List.cons_append, takeBody]
    simp only [fence, List.isPrefixOf, hbc, Bool.false_and, Bool.false_eq_true,
      if_false]
    rw [show ([btick, btick, btick] : List Char) = fence from rfl, ih hb.2]
    rfl

theorem matchSectionAt_hit (ws b1 rest : List Char)
    (hws : ws.all isWs = true)
    (hb1 : b1.all (fun c => !(c == btick)) = true) :
    matchSectionAt (interestingMomentsLabel ++
        (ws ++ (fence ++ (b1 ++ (fence ++ rest))))) = some b1 := by
  have hpre : interestingMomentsLabel.isPrefixOf (interestingMomentsLabel ++
      (ws ++ (fence ++ (b1 ++ (fence ++ rest))))) = true := by
    rw [List.isPrefixOf_iff_prefix]
    exact List.prefix_append _ _
  have hwsb : isWs btick = false := by decide
  have hskip : skipWs (ws ++ (fence ++ (b1 ++ (fence ++ rest)))) =
      fence ++ (b1 ++ (fence ++ rest)) := by
    rw [skipWs_append _ _ hws]
    simp [fence, skipWs, hwsb]
  have hfp : fence.isPrefixOf (fence ++ (b1 ++ (fence ++ rest))) = true := by
    rw [List.isPrefixOf_iff_prefix]
    exact List.prefix_append _ _
  simp only [matchSectionAt, hpre, if_true, List.drop_left, hskip, hfp]
  exact takeBody_clean b1 rest hb1

theorem findSection_cons_some (l b : List Char) (hne : l ≠ [])
    (h : matchSectionAt l = some b) : findSection l = some b := by
  cases l with
  | nil => exact absurd rfl hne
  | cons c t => simp [findSection, h]

theorem findSection_skip (pre tail : List Char)
    (htail : interestingMomentsLabel.isPrefixOf tail = true)
    (hpre : containsSub interestingMomentsLabel
        (pre ++ interestingMomentsLabel.take 19) = false) :
    findSection (pre ++ tail) = findSection tail := by
  induction pre with
  | nil => rw [List.nil_append]
  | cons c pre' ih =>
    rw [List.cons_append, containsSub] at hpre
    obtain ⟨h1, h2⟩ := Bool.or_eq_false_iff.mp hpre
    have hnone : matchSectionAt (c :: (pre' ++ tail)) = none := by
      cases hm : matchSectionAt (c :: (pre' ++ tail)) with
      | none => rfl
      | some bb =>
        have hlab := matchSectionAt_some_label _ _ hm
        rw [← List.cons_append] at hlab
        have hlen20 : interestingMomentsLabel.length = 20 := rfl
        have hlab2 := prefixOf_take interestingMomentsLabel _
          ((c :: pre').length + 19)
          (by rw [hlen20]; simp [List.length_cons]) hlab
        obtain ⟨t, rfl⟩ := List.isPrefixOf_iff_prefix.mp htail
        have hsub0 : (19 : Nat) - interestingMomentsLabel.length = 0 := rfl
        have htake : ((c :: pre') ++ (interestingMomentsLabel ++ t)).take
            ((c :: pre').length + 19) =
            (c :: pre') ++ interestingMomentsLabel.take 19 := by
          rw [List.take_append_eq_append_take,
            List.take_of_length_le (by omega), Nat.add_sub_cancel_left,
            List.take_append_eq_append_take, hsub0, List.take_zero,
            List.append_nil]
        rw [htake, List.cons_append] at hlab2
        rw [hlab2] at h1
        simp at h1
    rw [List.cons_append, findSection, hnone]
    exact ih h2

theorem findSection_hit (pre ws b1 rest : List Char)
    (hpre : containsSub interestingMomentsLabel
        (pre ++ interestingMomentsLabel.take 19) = false)
    (hws : ws.all isWs = true)
    (hb1 : b1.all (fun c => !(c == btick)) = true) :
    findSection (pre ++ (interestingMomentsLabel ++
        (ws ++ (fence ++ (b1 ++ (fence ++ rest)))))) = some b1 := by
  rw [findSection_skip pre _
    (by rw [List.isPrefixOf_iff_prefix]; exact List.prefix_append _ _) hpre]
  exact findSection_cons_some _ _ (by simp [interestingMomentsLabel])
    (matchSectionAt_hit ws b1 rest hws hb1)

/-- C5: when the input consists of arbitrary text without the label,
then the `Interesting_Moments:` label, whitespace, a fenced block whose
body `b1` contains no fence character, and then arbitrary further text
`rest` (which may contain any number of further fenced blocks), the parse
operation extracts records from `b1` only: the result does not depend on
`rest` at all. -/
theorem only_first_fenced_block_used (pre ws b1 rest : List Char)
    (hpre : containsSub interestingMomentsLabel
        (pre ++ interestingMomentsLabel.take 19) = false)
    (hws : ws.all isWs = true)
    (hb1 : b1.all (fun c => !(c == btick)) = true) :
    parse_highlights_for_video (pre ++ (interestingMomentsLabel ++
        (ws ++ (fence ++ (b1 ++ (fence ++ rest)))))) =
      collectSegments (splitBlocks b1) := by
  unfold parse_highlights_for_video
  rw [findSection_hit pre ws b1 rest hpre hws hb1]

set_option maxRecDepth 200000 in
theorem only_first_fenced_block_used_witness :
    parse_highlights_for_video ([] ++ (interestingMomentsLabel ++
        ((['\n']) ++ (fence ++ (wFirstBody ++ (fence ++ wSecondBlock)))))) =
      collectSegments (splitBlocks wFirstBody) :=
  only_first_fenced_block_used [] ['\n'] wFirstBody wSecondBlock
    (by decide) (by decide) (by decide)

set_option maxRecDepth 200000 in
theorem candidate_iff_both_timestamps_witness :
    parse_highlights_for_video wMissingEnd =
      ((splitBlocks wMissingEndBody).filter
          (fun b => (extractTimes b).isSome)).map
        (fun b => (extractTimes b).getD ([], [])) :=
  (candidate_iff_both_timestamps wMissingEnd wMissingEndBody (by decide)).2

/-! ## Claim about the subtitle exporter -/

theorem export_srt_eq (k : Nat) (segs : List SpeechSegment)
    (h : ∀ s ∈ segs, 0 ≤ s.start ∧ 0 ≤ s.«end») :
    export_transcript_to_srt k segs =
      some (((List.enumFrom k segs).map (fun p => srtCueSpec p.1 p.2)).flatten) := by
  induction segs generalizing k with
  | nil => simp [export_transcript_to_srt]
  | cons s rest ih =>
    obtain ⟨hs, he⟩ := h s (by simp)
    have h1 := format_timestamp_eq_some s.start true hs
    have h2 := format_timestamp_eq_some s.«end» true he
    rw [export_transcript_to_srt, h1, h2,
      ih (k + 1) (fun x hx => h x (by simp [hx]))]
    simp [srtCueSpec, List.enumFrom, h1, h2]

/-- C9: for every sequence of speech segments (whose timestamps satisfy
the data-model invariant of being non-negative), the subtitle output is
the concatenation, in input order, of one cue per segment: the 1-based
sequence number line, the `start --> end` line with millisecond-granular
comma-separated timestamps, the trimmed segment text, and a blank line
separator. -/
theorem export_srt_cue_structure (segs : List SpeechSegment)
    (h : ∀ s ∈ segs, 0 ≤ s.start ∧ 0 ≤ s.«end») :
    export_transcript_to_srt 0 segs =
      some ((segs.enum.map (fun p => srtCueSpec p.1 p.2)).flatten) := by
  rw [show segs.enum = List.enumFrom 0 segs from rfl]
  exact export_srt_eq 0 segs h

theorem export_srt_cue_structure_witness :
    export_transcript_to_srt 0 wSpeech =
      some ((wSpeech.enum.map (fun p => srtCueSpec p.1 p.2)).flatten) :=
  export_srt_cue_structure wSpeech (by
    intro s hs
    simp only [wSpeech, List.mem_cons, List.not_mem_nil, or_false] at hs
    rcases hs with rfl | rfl <;> exact ⟨by norm_num, by norm_num⟩)

end AVH
